import Mathlib

/-!
Shallow embedding of the quota-aware search-aggregation core of
`basefinder.py`: link extractor, credential rotator, channel search client,
result cache, and aggregator.  Strings are modelled as `List Char`; time as
`Int`; the external YouTube API as an oracle (`World`) supplying the outcome
of each network call; Python exceptions as `Except`/error values.
-/

set_option maxHeartbeats 1000000
set_option maxRecDepth 100000

abbrev Str := List Char

/-- Configuration constant `QUOTA_LIMIT = 10000` from the source. -/
def QUOTA_LIMIT : Nat := 10000

/-- Configuration constant `MAX_LINKS_PER_REQUEST = 3` from the source. -/
def MAX_LINKS_PER_REQUEST : Nat := 3

/-- Configuration constant `CACHE_DURATION = 3600` from the source. -/
def CACHE_DURATION : Int := 3600

/-- Configuration constant `MAX_CACHE_ENTRIES = 100` from the source. -/
def MAX_CACHE_ENTRIES : Nat := 100

/-- Character class `[A-Z]` of `base_link_pattern`. -/
def isUpperAZ (c : Char) : Bool := 'A' ≤ c && c ≤ 'Z'

/-- Character class `[0-9A-Za-z\-_]` of `base_link_pattern`. -/
def isTailChar (c : Char) : Bool :=
  ('0' ≤ c && c ≤ '9') || ('A' ≤ c && c ≤ 'Z') || ('a' ≤ c && c ≤ 'z') || c = '-' || c = '_'

/-- The literal head of `base_link_pattern`, up to and including `TH`. -/
def litTH : Str := "https://link.clashofclans.com/en/?action=OpenLayout&id=TH".toList

/-- The literal head again, minus its first character (used to expose the
head of `litTH` in proofs). -/
def litTHtail : Str := "ttps://link.clashofclans.com/en/?action=OpenLayout&id=TH".toList

/-- The encoded separator `%3A` used twice in `base_link_pattern`. -/
def encTok : Str := ['%', '3', 'A']

/-- Second digit of the level alternation `(?:15|16|17)`. -/
def d2ok (c : Char) : Bool := c = '5' || c = '6' || c = '7'

/-- Strip a literal character sequence from the front of a string. -/
def dropLit : Str → Str → Option Str
  | [], s => some s
  | _ :: _, [] => none
  | p :: ps, c :: cs => if p = c then dropLit ps cs else none

/-- The shape of a full match of `base_link_pattern`. -/
def mkLink (d2 : Char) (up tl : Str) : Str :=
  litTH ++ '1' :: d2 :: (encTok ++ (up ++ (encTok ++ tl)))

/-- Attempt to match `base_link_pattern` at the start of `s`; on success
return the matched text and the remainder.  Greedy `+` repetition needs no
backtracking here because `%` belongs to neither character class. -/
def matchAt (s : Str) : Option (Str × Str) :=
  match dropLit litTH s with
  | none => none
  | some s1 =>
    match s1 with
    | d1 :: d2 :: s2 =>
      if d1 = '1' && d2ok d2 then
        match dropLit encTok s2 with
        | none => none
        | some s3 =>
          if s3.takeWhile isUpperAZ = [] then none
          else
            match dropLit encTok (s3.dropWhile isUpperAZ) with
            | none => none
            | some s5 =>
              if s5.takeWhile isTailChar = [] then none
              else some (mkLink d2 (s3.takeWhile isUpperAZ) (s5.takeWhile isTailChar),
                         s5.dropWhile isTailChar)
      else none
    | _ => none

/-- Left-to-right non-overlapping scan, the semantics of
`base_link_pattern.findall`; the fuel bounds the number of scan steps and
`s.length` steps always suffice. -/
def findAllAux : Nat → Str → List Str
  | 0, _ => []
  | _ + 1, [] => []
  | fuel + 1, c :: cs =>
    match matchAt (c :: cs) with
    | some (m, r) => m :: findAllAux fuel r
    | none => findAllAux fuel cs

/-- `base_link_pattern.findall(s)`. -/
def findAll (s : Str) : List Str := findAllAux s.length s

/-- Python substring containment `needle in hay`. -/
def containsSub (needle hay : Str) : Bool := hay.tails.any (fun t => needle.isPrefixOf t)

/-- Python truthiness of an optional string/list (`None` and empty are falsy). -/
def truthyList : Option (List α) → Bool
  | none => false
  | some l => !l.isEmpty

/-- `extract_links(description, town_hall_level)` from the source. -/
def extract_links (description : Str) (town_hall_level : Option Str := none) : List Str :=
  let all_links := findAll description
  if truthyList town_hall_level then
    let pattern_encoded := "id=".toList ++ town_hall_level.getD [] ++ encTok
    all_links.filter (fun link => containsSub pattern_encoded link)
  else all_links

/-- Outcome of one `build(...)` client-construction attempt. -/
inductive BuildRes
  | success
  | quotaErr
  | httpErr
  | exc
deriving DecidableEq

/-- A Python exception escaping `get_youtube_client` uncaught. -/
inductive ErrKind
  | http
  | exc
deriving DecidableEq

abbrev QuotaMap := List (Str × Nat)

/-- `API_KEY_QUOTA[k]` (keys are always initialised in the source, default 0). -/
def lookupQ (q : QuotaMap) (k : Str) : Nat :=
  ((q.find? (fun kv => kv.1 == k)).map (·.2)).getD 0

/-- `API_KEY_QUOTA[k] = v`. -/
def setQ (q : QuotaMap) (k : Str) (v : Nat) : QuotaMap :=
  q.map (fun kv => if kv.1 == k then (kv.1, v) else kv)

/-- `API_KEY_QUOTA[k] += n`. -/
def bumpQ (q : QuotaMap) (k : Str) (n : Nat) : QuotaMap :=
  q.map (fun kv => if kv.1 == k then (kv.1, kv.2 + n) else kv)

/-- Python `min(is, key=g)` over a nonempty index list: first index with the
least `g`-value. -/
def argminFold (g : Nat → Nat) (i : Nat) (is : List Nat) : Nat :=
  is.foldl (fun best j => if g j < g best then j else best) i

/-- `min(range(len(API_KEYS)), key=lambda i: API_KEY_QUOTA[API_KEYS[i]])`. -/
def selectKeyIdx (keys : List Str) (q : QuotaMap) : Option Nat :=
  match List.range keys.length with
  | [] => none
  | i :: is => some (argminFold (fun j => lookupQ q (keys.getD j [])) i is)

/-- The retry loop of `get_youtube_client`; the fuel is the remaining number
of retries (`len(API_KEYS) - retries`). -/
def gycAux (build : Str → BuildRes) (keys : List Str) :
    Nat → QuotaMap → Except ErrKind (Option Str × QuotaMap)
  | 0, q => .ok (none, q)
  | n + 1, q =>
    match selectKeyIdx keys q with
    | none => .ok (none, q)
    | some i =>
      match build (keys.getD i []) with
      | .success => .ok (some (keys.getD i []), q)
      | .quotaErr => gycAux build keys n (setQ q (keys.getD i []) QUOTA_LIMIT)
      | .httpErr => .error .http
      | .exc => .error .exc

/-- `get_youtube_client()`: returns the selected key (standing for the built
client), `none` when all retries were consumed, or an uncaught exception. -/
def get_youtube_client (build : Str → BuildRes) (keys : List Str) (q : QuotaMap) :
    Except ErrKind (Option Str × QuotaMap) :=
  gycAux build keys keys.length q

/-- Failure of one external API call: an `HttpError` (possibly carrying a
quota-exhaustion reason) or any other exception. -/
inductive ApiErr
  | http (quota : Bool)
  | exc
deriving DecidableEq

/-- Oracle fixing the outcome of every external call of one aggregation pass. -/
structure World where
  build : Str → BuildRes
  searchResp : Str → Str → Str → Except ApiErr (List Str)
  videoResp : List Str → Except ApiErr (List Str)

/-- `fetch_video_links(youtube, video_ids, town_hall_level)`: the client is
the selected `key`; `w.videoResp` yields the description of each video. -/
def fetch_video_links (w : World) (key : Str) (video_ids : List Str) (thl : Str)
    (q : QuotaMap) : List Str × QuotaMap :=
  if video_ids = [] then ([], q)
  else
    let q1 := bumpQ q key video_ids.length
    match w.videoResp video_ids with
    | .ok descs =>
      (descs.foldl (fun results d =>
        let links := extract_links d (some thl)
        if links = [] then results else results ++ links) [], q1)
    | .error _ => ([], q1)

/-- `search_channel_videos(youtube, channel_id, town_hall_level, base_type)`:
`w.searchResp` yields the recent-video ids for the channel and query. -/
def search_channel_videos (w : World) (key : Str) (channel_id : Str) (thl bt : Str)
    (q : QuotaMap) : List Str × QuotaMap :=
  let q1 := bumpQ q key 100
  match w.searchResp channel_id thl bt with
  | .ok video_ids => fetch_video_links w key video_ids thl q1
  | .error _ => ([], q1)

/-- One `link_cache` entry: `{"links": ..., "timestamp": ...}`. -/
structure CacheEntry where
  links : List Str
  timestamp : Int
deriving DecidableEq

abbrev Cache := List (Str × CacheEntry)

/-- `get_cache_key(town_hall_level, base_type)`. -/
def get_cache_key (thl bt : Str) : Str := thl ++ '_' :: bt

/-- Dictionary lookup `link_cache[k]`. -/
def lookupC (c : Cache) (k : Str) : Option CacheEntry :=
  (c.find? (fun kv => kv.1 == k)).map (·.2)

/-- `get_cached_links(town_hall_level, base_type)` at time `now`. -/
def get_cached_links (now : Int) (thl bt : Str) (c : Cache) : Option (List Str) :=
  match lookupC c (get_cache_key thl bt) with
  | some entry =>
    if now - entry.timestamp < CACHE_DURATION then
      if entry.links.isEmpty then none else some entry.links
    else none
  | none => none

/-- `del link_cache[k]` (a dict holds each key once). -/
def eraseKeyC (c : Cache) (k : Str) : Cache := c.eraseP (fun kv => kv.1 == k)

/-- `cleanup_cache()` at time `now`: drop expired entries, then delete
oldest-timestamp entries until at most `MAX_CACHE_ENTRIES` remain. -/
def cleanup_cache (now : Int) (c : Cache) : Cache :=
  let kept := c.filter (fun kv => now - kv.2.timestamp < CACHE_DURATION)
  if kept.length > MAX_CACHE_ENTRIES then
    let sorted := kept.mergeSort (fun a b => a.2.timestamp ≤ b.2.timestamp)
    let toRemove := sorted.take (kept.length - MAX_CACHE_ENTRIES)
    toRemove.foldl (fun acc kv => eraseKeyC acc kv.1) kept
  else kept

/-- Dictionary assignment `link_cache[k] = v`: replace in place or append. -/
def insertC (c : Cache) (k : Str) (v : CacheEntry) : Cache :=
  if c.any (fun kv => kv.1 == k) then
    c.map (fun kv => if kv.1 == k then (kv.1, v) else kv)
  else c ++ [(k, v)]

/-- `cache_links(town_hall_level, base_type, links)` at time `now`. -/
def cache_links (now : Int) (thl bt : Str) (links : List Str) (c : Cache) : Cache :=
  insertC (cleanup_cache now c) (get_cache_key thl bt) ⟨links, now⟩

/-- A preloaded channel `{"id": ..., "name": ...}`. -/
structure Channel where
  id : Str
  name : Str
deriving DecidableEq

/-- The shared mutable state touched by one aggregation pass. -/
structure SpcState where
  quota : QuotaMap
  cache : Cache
deriving DecidableEq

/-- Insertion into the Python set `found_links` (insertion-order model). -/
def insertIfAbsent (s : List Str) (x : Str) : List Str :=
  if s.contains x then s else s ++ [x]

/-- `search_preloaded_channels(town_hall_level, base_type, max_links)` at
time `now`, over the given key list, channel list and call oracle. -/
def search_preloaded_channels (w : World) (keys : List Str) (channels : List Channel)
    (now : Int) (thl bt : Str) (max_links : Nat) (st : SpcState) :
    Except ErrKind (List Str × SpcState) :=
  let cached_links := get_cached_links now thl bt st.cache
  if truthyList cached_links then
    .ok ((cached_links.getD []).take max_links, st)
  else
    match get_youtube_client w.build keys st.quota with
    | .error e => .error e
    | .ok (none, q1) => .ok ([], { quota := q1, cache := st.cache })
    | .ok (some key, q1) =>
      let step := fun (acc : List (List Str) × QuotaMap) (ch : Channel) =>
        let r := search_channel_videos w key ch.id thl bt acc.2
        (acc.1 ++ [r.1], r.2)
      let res := channels.foldl step ([], q1)
      let found_links := res.1.foldl (fun s ls => ls.foldl insertIfAbsent s) []
      let final_links := found_links.take max_links
      .ok (final_links, { quota := res.2, cache := cache_links now thl bt final_links st.cache })

/-- Whether a whole string is one full match of `base_link_pattern`. -/
def matchesPattern (l : Str) : Bool := matchAt l == some (l, [])

/-- A concrete link used to exercise the extractor. -/
def sampleLink : Str := mkLink '5' ['W', 'B'] ['a', 'b', 'c']

/-- `n` copies of `sampleLink` separated by blanks: one synthetic description. -/
def sampleText : Nat → Str
  | 0 => []
  | n + 1 => sampleLink ++ ' ' :: sampleText n

/-- A description holding three distinct TH15 links, for the per-source-cap
counterexample. -/
def cexText : Str :=
  mkLink '5' ['W', 'B'] ['a', 'a', 'a'] ++ ' ' ::
  (mkLink '5' ['W', 'B'] ['b', 'b', 'b'] ++ ' ' ::
   mkLink '5' ['W', 'B'] ['c', 'c', 'c'])

instance {ε α : Type} [DecidableEq ε] [DecidableEq α] : DecidableEq (Except ε α) := fun a b =>
  match a, b with
  | .error e1, .error e2 =>
    if h : e1 = e2 then isTrue (by rw [h]) else isFalse (fun hh => h (by injection hh))
  | .ok v1, .ok v2 =>
    if h : v1 = v2 then isTrue (by rw [h]) else isFalse (fun hh => h (by injection hh))
  | .error _, .ok _ => isFalse (fun hh => Except.noConfusion hh)
  | .ok _, .error _ => isFalse (fun hh => Except.noConfusion hh)

/-- A cache state with one fresh-at-0 entry, for the TTL witness. -/
def cC7 : Cache := [(get_cache_key "TH15".toList "War".toList, ⟨[['x']], 0⟩)]

/-- A cache state holding an empty link list, for the empty-entry witness. -/
def cC10 : Cache := [(get_cache_key "TH16".toList "CWL".toList, ⟨[], 10⟩)]

/-- A quota map with every key at the exhaustion sentinel. -/
def qAllC2 : QuotaMap := [("k1".toList, QUOTA_LIMIT), ("k2".toList, QUOTA_LIMIT)]

/-- 101 distinct cache keys, for the capacity counterexample. -/
def putKeys : List Str := (List.range 101).map (fun i => Nat.toDigits 10 i)

/-- A single API key for the channel-search scenarios. -/
def kC1 : Str := ['k']

/-- A single channel for the channel-search scenarios. -/
def chC1 : Channel := ⟨['c'], ['c']⟩

/-- Oracle whose channel search fails with a quota-exhaustion `HttpError`. -/
def wC1quota : World :=
  ⟨fun _ => .success, fun _ _ _ => .error (.http true), fun _ => .error (.http true)⟩

/-- Oracle whose channel search fails with a non-quota exception. -/
def wC1other : World :=
  ⟨fun _ => .success, fun _ _ _ => .error .exc, fun _ => .error .exc⟩

/-- Oracle whose calls all succeed with empty results. -/
def wC3 : World := ⟨fun _ => .success, fun _ _ _ => .ok [], fun _ => .ok []⟩

/-- A cache state holding a two-link entry, for the aggregator hit witness. -/
def cacheC8 : Cache := [(get_cache_key "TH16".toList "War".toList, ⟨[['a'], ['b']], 0⟩)]

/-- Aggregator state for the hit witness. -/
def stC8 : SpcState := ⟨[(kC1, 0)], cacheC8⟩

/-! ### Link extractor lemmas -/

theorem litTH_head : litTH = 'h' :: litTHtail := by decide

theorem dropLit_append : ∀ (p r : Str), dropLit p (p ++ r) = some r := by
  intro p
  induction p with
  | nil => intro r; rfl
  | cons x xs ih => intro r; simp [dropLit, ih r]

theorem dropLit_eq_append (p : Str) : ∀ s r, dropLit p s = some r → s = p ++ r := by
  induction p with
  | nil => intro s r h; simpa [dropLit] using h
  | cons x xs ih =>
    intro s r h
    cases s with
    | nil => simp [dropLit] at h
    | cons c cs =>
      simp only [dropLit] at h
      split at h
      · next hx => simpa [← hx] using ih cs r h
      · exact absurd h (by simp)

theorem takeWhile_all_app (p : Char → Bool) : ∀ (xs rest : Str), (∀ c ∈ xs, p c = true) →
    (∀ c t, rest = c :: t → p c = false) →
    (xs ++ rest).takeWhile p = xs ∧ (xs ++ rest).dropWhile p = rest := by
  intro xs
  induction xs with
  | nil =>
    intro rest _ hr
    cases rest with
    | nil => simp
    | cons c t =>
      have hc := hr c t rfl
      simp [List.takeWhile_cons, List.dropWhile_cons, hc]
  | cons x xs ih =>
    intro rest hx hr
    have hpx : p x = true := hx x (by simp)
    have h2 := ih rest (fun c hc => hx c (by simp [hc])) hr
    simp [List.takeWhile_cons, List.dropWhile_cons, hpx, h2.1, h2.2]

theorem dropWhile_head_false {α : Type} {p : α → Bool} : ∀ {l : List α} {c : α} {t : List α},
    l.dropWhile p = c :: t → p c = false := by
  intro l
  induction l with
  | nil => intro c t h; simp at h
  | cons a as ih =>
    intro c t h
    rw [List.dropWhile_cons] at h
    split at h
    · exact ih h
    · next hpa =>
      cases h
      simpa using hpa

theorem matchAt_shape {s m r : Str} (h : matchAt s = some (m, r)) :
    ∃ d2 up tl, d2ok d2 = true ∧ up ≠ [] ∧ (∀ c ∈ up, isUpperAZ c = true) ∧
      tl ≠ [] ∧ (∀ c ∈ tl, isTailChar c = true) ∧ m = mkLink d2 up tl ∧
      s = m ++ r ∧ ∀ c t, r = c :: t → isTailChar c = false := by
  unfold matchAt at h
  split at h
  · exact absurd h (by simp)
  case h_2 s1 heq0 =>
    split at h
    case h_2 => exact absurd h (by simp)
    case h_1 d1 d2 s2 =>
      split at h
      case isFalse => exact absurd h (by simp)
      case isTrue hcond =>
        have hc2 : d1 = '1' ∧ d2ok d2 = true := by simpa using hcond
        have hd1 : d1 = '1' := hc2.1
        have hd2 : d2ok d2 = true := hc2.2
        split at h
        · exact absurd h (by simp)
        case h_2 s3 heq2 =>
          split at h
          case isTrue => exact absurd h (by simp)
          case isFalse hup =>
            split at h
            · exact absurd h (by simp)
            case h_2 s5 heq3 =>
              split at h
              case isTrue => exact absurd h (by simp)
              case isFalse htl =>
                simp only [Option.some.injEq, Prod.mk.injEq] at h
                obtain ⟨hm, hr⟩ := h
                have e1 : s = litTH ++ (d1 :: d2 :: s2) := dropLit_eq_append _ _ _ heq0
                have e2 : s2 = encTok ++ s3 := dropLit_eq_append _ _ _ heq2
                have e3 : s3.dropWhile isUpperAZ = encTok ++ s5 := dropLit_eq_append _ _ _ heq3
                have e4 := List.takeWhile_append_dropWhile isUpperAZ s3
                have e5 := List.takeWhile_append_dropWhile isTailChar s5
                refine ⟨d2, s3.takeWhile isUpperAZ, s5.takeWhile isTailChar,
                  hd2, hup, fun c hc => List.mem_takeWhile_imp hc,
                  htl, fun c hc => List.mem_takeWhile_imp hc, hm.symm, ?_, ?_⟩
                · have key : mkLink d2 (s3.takeWhile isUpperAZ) (s5.takeWhile isTailChar)
                      ++ s5.dropWhile isTailChar = s := by
                    have expand : mkLink d2 (s3.takeWhile isUpperAZ) (s5.takeWhile isTailChar)
                        ++ s5.dropWhile isTailChar
                        = litTH ++ ('1' :: d2 :: (encTok ++ (s3.takeWhile isUpperAZ
                          ++ (encTok ++ (s5.takeWhile isTailChar ++ s5.dropWhile isTailChar))))) := by
                      simp [mkLink, List.append_assoc]
                    rw [expand, e5, ← e3, e4, ← e2, ← hd1, ← e1]
                  rw [← hm, ← hr]
                  exact key.symm
                · intro c t hct
                  rw [← hr] at hct
                  exact dropWhile_head_false hct

theorem matchAt_mk {d2 : Char} {up tl rest : Str} (hd : d2ok d2 = true) (hu : up ≠ [])
    (hup : ∀ c ∈ up, isUpperAZ c = true) (ht : tl ≠ []) (htl : ∀ c ∈ tl, isTailChar c = true)
    (hr : ∀ c t, rest = c :: t → isTailChar c = false) :
    matchAt (mkLink d2 up tl ++ rest) = some (mkLink d2 up tl, rest) := by
  have h1 : mkLink d2 up tl ++ rest
      = litTH ++ ('1' :: d2 :: (encTok ++ (up ++ (encTok ++ (tl ++ rest))))) := by
    simp [mkLink, List.append_assoc]
  have hup2 : ∀ c t', encTok ++ (tl ++ rest) = c :: t' → isUpperAZ c = false := by
    intro c t' hct
    have : '%' = c := by simpa [encTok] using congrArg (fun l => l.headD ' ') hct
    simp [← this, isUpperAZ]
  have htw := takeWhile_all_app isUpperAZ up (encTok ++ (tl ++ rest)) hup hup2
  have htw2 := takeWhile_all_app isTailChar tl rest htl hr
  rw [h1]
  unfold matchAt
  rw [dropLit_append]
  simp only [dropLit_append, hd, htw.1, htw.2, htw2.1, htw2.2, hu, ht]
  simp [mkLink, List.append_assoc, hu, ht]

theorem matchAt_self {s m r : Str} (h : matchAt s = some (m, r)) :
    matchAt m = some (m, []) := by
  obtain ⟨d2, up, tl, hd, hu, hup, ht, htl, hm, _, _⟩ := matchAt_shape h
  have h2 := @matchAt_mk d2 up tl [] hd hu hup ht htl (fun c t hct => by simp at hct)
  rw [List.append_nil] at h2
  rw [hm]
  exact h2

theorem matchAt_decomp {s m r : Str} (h : matchAt s = some (m, r)) :
    s = m ++ r ∧ m ≠ [] := by
  obtain ⟨d2, up, tl, _, _, _, _, _, hm, hs, _⟩ := matchAt_shape h
  refine ⟨hs, ?_⟩
  rw [hm]
  simp [mkLink, litTH]

theorem findAllAux_matches : ∀ (fuel : Nat) (s : Str), ∀ m ∈ findAllAux fuel s,
    matchAt m = some (m, []) := by
  intro fuel
  induction fuel with
  | zero => intro s m hm; simp [findAllAux] at hm
  | succ n ih =>
    intro s m hm
    cases s with
    | nil => simp [findAllAux] at hm
    | cons c cs =>
      simp only [findAllAux] at hm
      split at hm
      case h_1 p heq =>
        rcases List.mem_cons.mp hm with h1 | h1
        · subst h1; exact matchAt_self heq
        · exact ih _ _ h1
      case h_2 => exact ih _ _ hm

theorem findAll_matches (s : Str) : ∀ m ∈ findAll s, matchAt m = some (m, []) :=
  findAllAux_matches s.length s

theorem matchAt_rest_lt {s m r : Str} (h : matchAt s = some (m, r)) : r.length < s.length := by
  obtain ⟨hs, hm⟩ := matchAt_decomp h
  rw [hs, List.length_append]
  have : 0 < m.length := List.length_pos.mpr hm
  omega

theorem findAllAux_fuel_eq : ∀ (fuel : Nat) (s : Str), s.length ≤ fuel →
    findAllAux fuel s = findAll s := by
  intro fuel
  induction fuel using Nat.strong_induction_on with
  | _ fuel ih =>
    cases fuel with
    | zero =>
      intro s hs
      have hnil : s = [] := by cases s <;> simp_all
      subst hnil; rfl
    | succ n =>
      intro s hs
      cases s with
      | nil => simp [findAll, findAllAux]
      | cons c cs =>
        show findAllAux (n + 1) (c :: cs) = findAllAux (c :: cs).length (c :: cs)
        have hlen : (c :: cs).length = cs.length + 1 := rfl
        rw [hlen]
        simp only [findAllAux]
        cases hm : matchAt (c :: cs) with
        | some pr =>
          obtain ⟨m, r⟩ := pr
          have hr := matchAt_rest_lt hm
          rw [hlen] at hr
          have hsn : cs.length ≤ n := by simpa using hs
          dsimp only
          congr 1
          rw [ih n (by omega) r (by omega), ih cs.length (by omega) r (by omega)]
        | none =>
          have hsn : cs.length ≤ n := by simpa using hs
          dsimp only
          rw [ih n (by omega) cs (by omega), ih cs.length (by omega) cs (by omega)]

theorem findAll_eq_match {s m r : Str} (hm : matchAt s = some (m, r)) :
    findAll s = m :: findAll r := by
  cases s with
  | nil =>
    unfold matchAt at hm
    rw [litTH_head] at hm
    simp [dropLit] at hm
  | cons c cs =>
    show findAllAux (cs.length + 1) (c :: cs) = _
    simp only [findAllAux, hm]
    have hr := matchAt_rest_lt hm
    simp only [List.length_cons] at hr
    rw [findAllAux_fuel_eq cs.length r (by omega)]

theorem findAll_cons_skip {c : Char} {cs : Str} (hm : matchAt (c :: cs) = none) :
    findAll (c :: cs) = findAll cs := by
  show findAllAux (cs.length + 1) (c :: cs) = _
  simp only [findAllAux, hm]
  rfl


theorem matchAt_not_h {c : Char} (hc : c ≠ 'h') (t : Str) : matchAt (c :: t) = none := by
  unfold matchAt
  have hd : dropLit litTH (c :: t) = none := by
    rw [litTH_head]
    simp [dropLit, Ne.symm hc]
  rw [hd]


theorem matchAt_sample (t : Str) : matchAt (sampleLink ++ ' ' :: t) = some (sampleLink, ' ' :: t) :=
  matchAt_mk (by decide) (by decide) (by decide) (by decide) (by decide)
    (fun c t' h => by
      have hc : ' ' = c ∧ t = t' := by simpa using h
      rw [← hc.1]; decide)

theorem findAll_sample_cons (t : Str) :
    findAll (sampleLink ++ ' ' :: t) = sampleLink :: findAll t := by
  rw [findAll_eq_match (matchAt_sample t), findAll_cons_skip (matchAt_not_h (by decide) t)]

/-- C6: for every text input and every requested (nonempty) level filter,
each string returned by `extract_links` is a full match of
`base_link_pattern` and contains the encoded level token `id=<level>%3A`. -/
theorem C6_extract_links_pattern_level (text lvl : Str) (hl : lvl ≠ []) :
    ∀ link ∈ extract_links text (some lvl),
      matchesPattern link = true ∧
      containsSub ("id=".toList ++ lvl ++ encTok) link = true := by
  intro link hmem
  have htr : truthyList (some lvl) = true := by
    simp [truthyList, List.isEmpty_iff, hl]
  simp only [extract_links, htr, if_true] at hmem
  rw [List.mem_filter] at hmem
  refine ⟨?_, hmem.2⟩
  have := findAll_matches text link hmem.1
  simp [matchesPattern, this]

/-- Closed instance of C6 at `sampleLink` with level `TH15`. -/
theorem C6_witness : "TH15".toList ≠ [] ∧
    (∀ link ∈ extract_links sampleLink (some "TH15".toList),
      matchesPattern link = true ∧
      containsSub ("id=".toList ++ "TH15".toList ++ encTok) link = true) :=
  ⟨by decide, C6_extract_links_pattern_level sampleLink "TH15".toList (by decide)⟩

/-- C9: `extract_links` is a pure total function whose result only selects
among the pattern matches of the input; malformed input with no matches
yields the empty list (the source catches every exception internally). -/
theorem C9_extract_links_total (text : Str) (lvl : Option Str) :
    (extract_links text lvl).Sublist (findAll text) ∧
    (findAll text = [] → extract_links text lvl = []) := by
  have hsub : (extract_links text lvl).Sublist (findAll text) := by
    unfold extract_links
    dsimp only
    split
    · exact List.filter_sublist _
    · exact List.Sublist.refl _
  refine ⟨hsub, fun h => ?_⟩
  have h2 := hsub
  rw [h] at h2
  exact List.sublist_nil.mp h2

/-- Closed instance of C9 on a malformed input. -/
theorem C9_witness :
    (extract_links "no links %3A here".toList none).Sublist
      (findAll "no links %3A here".toList) ∧
    extract_links "no links %3A here".toList none = [] :=
  ⟨(C9_extract_links_total _ none).1, (C9_extract_links_total _ none).2 (by decide)⟩

/-- C5 fails on the code: one description containing three distinct TH15
links yields three extracted links — `extract_links` has no per-source cap
of 2. -/
theorem C5_counterexample :
    (extract_links cexText (some "TH15".toList)).length = 3 ∧
    ¬(extract_links cexText (some "TH15".toList)).length ≤ 2 := by decide

/-- C5 amended: `extract_links` applies no per-source cap at all — a
description with `n` level links contributes all `n` of them. -/
theorem C5_amended_no_cap (n : Nat) :
    (extract_links (sampleText n) (some "TH15".toList)).length = n := by
  have hform : ∀ m : Nat, ((findAll (sampleText m)).filter
      (fun link => containsSub ("id=".toList ++ "TH15".toList ++ encTok) link)).length = m := by
    intro m
    induction m with
    | zero => rfl
    | succ k ihk =>
      rw [show sampleText (k + 1) = sampleLink ++ ' ' :: sampleText k from rfl]
      rw [findAll_sample_cons]
      rw [List.filter_cons]
      rw [if_pos (by decide)]
      rw [List.length_cons, ihk]
  have hext : extract_links (sampleText n) (some "TH15".toList)
      = (findAll (sampleText n)).filter
        (fun link => containsSub ("id=".toList ++ "TH15".toList ++ encTok) link) := by
    simp [extract_links, truthyList]
  rw [hext]
  exact hform n

/-! ### Result cache reads: TTL and empty entries -/

/-- C7: a cache read whose stored entry is at least `CACHE_DURATION` old is
treated as a miss, and a hit only ever returns the link list of an entry
whose age is strictly below `CACHE_DURATION`. -/
theorem C7_get_cached_links_ttl (now : Int) (thl bt : Str) (c : Cache) :
    (∀ entry, lookupC c (get_cache_key thl bt) = some entry →
      now - entry.timestamp ≥ CACHE_DURATION →
      get_cached_links now thl bt c = none) ∧
    (∀ links, get_cached_links now thl bt c = some links →
      ∃ entry, lookupC c (get_cache_key thl bt) = some entry ∧
        links = entry.links ∧ now - entry.timestamp < CACHE_DURATION) := by
  constructor
  · intro entry he hold
    unfold get_cached_links
    rw [he]
    dsimp only
    rw [if_neg (by omega)]
  · intro links hg
    unfold get_cached_links at hg
    split at hg
    case h_2 => exact absurd hg (by simp)
    case h_1 entry he =>
      split at hg
      case isFalse => exact absurd hg (by simp)
      case isTrue hfresh =>
        split at hg
        case isTrue => exact absurd hg (by simp)
        case isFalse =>
          exact ⟨entry, he, by simpa using hg.symm, hfresh⟩

/-- Closed instance of C7: an entry exactly `CACHE_DURATION` old is a miss. -/
theorem C7_witness : get_cached_links 3600 "TH15".toList "War".toList cC7 = none :=
  (C7_get_cached_links_ttl 3600 "TH15".toList "War".toList cC7).1 ⟨[['x']], 0⟩
    (by decide) (by decide)

/-- C10: an entry whose stored link list is empty is a read miss, so at the
read interface (the aggregator's branch condition included) a cached empty
list is indistinguishable from an absent key. -/
theorem C10_empty_entry_is_miss (now : Int) (thl bt : Str) (c : Cache) (entry : CacheEntry)
    (he : lookupC c (get_cache_key thl bt) = some entry) (hempty : entry.links = []) :
    get_cached_links now thl bt c = none ∧
    truthyList (get_cached_links now thl bt c) = false := by
  have hnone : get_cached_links now thl bt c = none := by
    unfold get_cached_links
    rw [he]
    dsimp only
    split
    · rw [if_pos (by simp [hempty])]
    · rfl
  exact ⟨hnone, by rw [hnone]; rfl⟩

/-- Closed instance of C10 on a concrete empty-valued entry. -/
theorem C10_witness : get_cached_links 10 "TH16".toList "CWL".toList cC10 = none ∧
    truthyList (get_cached_links 10 "TH16".toList "CWL".toList cC10) = false :=
  C10_empty_entry_is_miss 10 "TH16".toList "CWL".toList cC10 ⟨[], 10⟩ (by decide) rfl

/-! ### Credential rotator -/

theorem argminFold_spec (g : Nat → Nat) : ∀ (is : List Nat) (i : Nat),
    (argminFold g i is = i ∨ argminFold g i is ∈ is) ∧
    g (argminFold g i is) ≤ g i ∧ ∀ j ∈ is, g (argminFold g i is) ≤ g j := by
  intro is
  induction is with
  | nil => intro i; exact ⟨Or.inl rfl, le_refl _, by simp⟩
  | cons a as ih =>
    intro i
    have hstep : argminFold g i (a :: as) = argminFold g (if g a < g i then a else i) as := by
      simp [argminFold, List.foldl_cons]
    obtain ⟨hmem, hle, hall⟩ := ih (if g a < g i then a else i)
    rw [hstep]
    by_cases hlt : g a < g i
    · simp only [hlt, if_true] at hmem hle hall ⊢
      refine ⟨?_, by omega, ?_⟩
      · rcases hmem with h | h
        · exact Or.inr (by simp [h])
        · exact Or.inr (by simp [h])
      · intro j hj
        rcases List.mem_cons.mp hj with h | h
        · subst h; exact hle
        · exact hall j h
    · simp only [hlt, if_false] at hmem hle hall ⊢
      refine ⟨?_, hle, ?_⟩
      · rcases hmem with h | h
        · exact Or.inl h
        · exact Or.inr (by simp [h])
      · intro j hj
        rcases List.mem_cons.mp hj with h | h
        · subst h; omega
        · exact hall j h

theorem selectKeyIdx_spec {keys : List Str} {q : QuotaMap} {i : Nat}
    (h : selectKeyIdx keys q = some i) :
    i < keys.length ∧
    ∀ j, j < keys.length → lookupQ q (keys.getD i []) ≤ lookupQ q (keys.getD j []) := by
  unfold selectKeyIdx at h
  split at h
  · exact absurd h (by simp)
  case h_2 r rs heq =>
    simp only [Option.some.injEq] at h
    obtain ⟨hmem, hle, hall⟩ :=
      argminFold_spec (fun j => lookupQ q (keys.getD j [])) rs r
    rw [h] at hmem hle hall
    constructor
    · have : i ∈ List.range keys.length := by
        rw [heq]
        rcases hmem with h1 | h1
        · simp [h1]
        · simp [h1]
      exact List.mem_range.mp this
    · intro j hj
      have : j ∈ List.range keys.length := List.mem_range.mpr hj
      rw [heq] at this
      rcases List.mem_cons.mp this with h1 | h1
      · subst h1; exact hle
      · exact hall j h1

theorem gycAux_min (build : Str → BuildRes) (keys : List Str) : ∀ (fuel : Nat) (q : QuotaMap)
    (k : Str) (q' : QuotaMap), gycAux build keys fuel q = .ok (some k, q') →
    k ∈ keys ∧ ∀ k' ∈ keys, lookupQ q' k ≤ lookupQ q' k' := by
  intro fuel
  induction fuel with
  | zero => intro q k q' h; exact absurd h (by simp [gycAux])
  | succ n ih =>
    intro q k q' h
    unfold gycAux at h
    split at h
    · exact absurd h (by simp)
    case h_2 i hsel =>
      obtain ⟨hlt, hmin⟩ := selectKeyIdx_spec hsel
      split at h
      case h_1 =>
        simp only [Except.ok.injEq, Prod.mk.injEq, Option.some.injEq] at h
        obtain ⟨hk, hq⟩ := h
        subst hk hq
        constructor
        · rw [List.getD_eq_getElem keys [] hlt]
          exact List.getElem_mem hlt
        · intro k' hk'
          obtain ⟨j, hj, hjk⟩ := List.mem_iff_getElem.mp hk'
          have := hmin j hj
          rwa [List.getD_eq_getElem keys [] hj, hjk] at this
      case h_2 => exact ih _ k q' h
      case h_3 => exact absurd h (by simp)
      case h_4 => exact absurd h (by simp)

/-- C2 amended: whenever `get_youtube_client` returns a credential it is one
with minimal recorded usage among all keys — the selector does not skip keys
marked exhausted, so with every key at the sentinel it still returns one;
the no-credential signal is produced when construction reports quota
exhaustion on every retry. -/
theorem C2_amended_minimal_selection (build : Str → BuildRes) (keys : List Str) (q : QuotaMap) :
    (∀ k q', get_youtube_client build keys q = .ok (some k, q') →
      k ∈ keys ∧ ∀ k' ∈ keys, lookupQ q' k ≤ lookupQ q' k') ∧
    ((∀ k, build k = .quotaErr) →
      ∃ q'', get_youtube_client build keys q = .ok (none, q'')) := by
  constructor
  · intro k q' h
    exact gycAux_min build keys keys.length q k q' h
  · intro hq
    suffices h : ∀ (fuel : Nat) (q0 : QuotaMap), ∃ q'',
        gycAux build keys fuel q0 = .ok (none, q'') by exact h keys.length q
    intro fuel
    induction fuel with
    | zero => intro q0; exact ⟨q0, rfl⟩
    | succ n ih =>
      intro q0
      unfold gycAux
      split
      · exact ⟨q0, rfl⟩
      case h_2 i hsel =>
        rw [hq (keys.getD i [])]
        exact ih _

/-- Closed instance of C2's amended statement: the returned key is minimal,
and all-quota-failing construction yields the no-credential signal. -/
theorem C2_amended_witness :
    ("k1".toList ∈ ["k1".toList, "k2".toList] ∧
      ∀ k' ∈ ["k1".toList, "k2".toList],
        lookupQ qAllC2 "k1".toList ≤ lookupQ qAllC2 k') ∧
    ∃ q'', get_youtube_client (fun _ => BuildRes.quotaErr)
      ["k1".toList, "k2".toList] qAllC2 = .ok (none, q'') :=
  ⟨(C2_amended_minimal_selection (fun _ => BuildRes.success)
      ["k1".toList, "k2".toList] qAllC2).1 "k1".toList qAllC2 (by decide),
   (C2_amended_minimal_selection (fun _ => BuildRes.quotaErr)
      ["k1".toList, "k2".toList] qAllC2).2 (fun _ => rfl)⟩

/-- C2 fails on the code: with every key marked `Exhausted` (usage at the
`QUOTA_LIMIT` sentinel) and client construction succeeding,
`get_youtube_client` returns the first exhausted key instead of the
no-credential signal. -/
theorem C2_counterexample :
    get_youtube_client (fun _ => BuildRes.success) ["k1".toList, "k2".toList] qAllC2
      = .ok (some "k1".toList, qAllC2) ∧
    lookupQ qAllC2 "k1".toList = QUOTA_LIMIT := by decide

/-! ### Result cache capacity -/

theorem eraseKeyC_spec (c : Cache) (k : Str) (hk : k ∈ c.map Prod.fst) :
    (eraseKeyC c k).length = c.length - 1 ∧
    ∀ k', k' ≠ k → k' ∈ c.map Prod.fst → k' ∈ (eraseKeyC c k).map Prod.fst := by
  obtain ⟨kv, hkv, hfst⟩ := List.mem_map.mp hk
  have hp : (fun kv : Str × CacheEntry => kv.1 == k) kv = true := by simp [hfst]
  obtain ⟨a, l₁, l₂, hnone, hpa, hdecomp, herase⟩ :=
    List.exists_of_eraseP (p := fun kv : Str × CacheEntry => kv.1 == k) hkv hp
  have hak : a.1 = k := by simpa using hpa
  constructor
  · unfold eraseKeyC
    rw [herase, hdecomp]
    simp [List.length_append]
  · intro k' hne hk'
    unfold eraseKeyC
    rw [herase]
    rw [hdecomp] at hk'
    simp only [List.map_append, List.mem_append, List.map_cons, List.mem_cons] at hk' ⊢
    rcases hk' with h | h
    · exact Or.inl h
    · rcases h with h | h
      · exact absurd (h.trans hak) hne
      · exact Or.inr h

theorem fold_erase_sublist {α : Type} (f : α → Str) : ∀ (ks : List α) (c : Cache),
    (ks.foldl (fun acc x => eraseKeyC acc (f x)) c).Sublist c := by
  intro ks
  induction ks with
  | nil => intro c; exact List.Sublist.refl c
  | cons k ks ih =>
    intro c
    rw [List.foldl_cons]
    exact (ih (eraseKeyC c (f k))).trans (List.eraseP_sublist c)

theorem fold_erase_length : ∀ (ks : List Str) (c : Cache),
    (c.map Prod.fst).Nodup → ks.Nodup → (∀ k ∈ ks, k ∈ c.map Prod.fst) →
    (ks.foldl (fun acc k => eraseKeyC acc k) c).length = c.length - ks.length := by
  intro ks
  induction ks with
  | nil => intro c _ _ _; simp
  | cons k ks ih =>
    intro c hc hks hmem
    rw [List.foldl_cons]
    obtain ⟨hlen, hkeep⟩ := eraseKeyC_spec c k (hmem k (by simp))
    have hsub : (eraseKeyC c k).Sublist c := List.eraseP_sublist c
    have hnd : ((eraseKeyC c k).map Prod.fst).Nodup := (hsub.map Prod.fst).nodup hc
    have hks' : ks.Nodup := (List.nodup_cons.mp hks).2
    have hkn : k ∉ ks := (List.nodup_cons.mp hks).1
    have hmem' : ∀ k' ∈ ks, k' ∈ (eraseKeyC c k).map Prod.fst := by
      intro k' hk'
      exact hkeep k' (fun he => hkn (he ▸ hk')) (hmem k' (by simp [hk']))
    rw [ih (eraseKeyC c k) hnd hks' hmem', hlen]
    simp only [List.length_cons]
    omega

theorem dropOld_le (kept : Cache) (hn : (kept.map Prod.fst).Nodup) :
    (if kept.length > MAX_CACHE_ENTRIES then
      ((kept.mergeSort (fun a b => a.2.timestamp ≤ b.2.timestamp)).take
        (kept.length - MAX_CACHE_ENTRIES)).foldl (fun acc kv => eraseKeyC acc kv.1) kept
     else kept).length ≤ MAX_CACHE_ENTRIES := by
  split
  case isFalse h => omega
  case isTrue hgt =>
    set sorted := kept.mergeSort (fun a b => a.2.timestamp ≤ b.2.timestamp) with hsorted
    set toRemove := sorted.take (kept.length - MAX_CACHE_ENTRIES) with htr
    have hperm : sorted.Perm kept := List.mergeSort_perm kept _
    have hfold : toRemove.foldl (fun acc kv => eraseKeyC acc kv.1) kept
        = (toRemove.map Prod.fst).foldl (fun acc k => eraseKeyC acc k) kept := by
      rw [List.foldl_map]
    have hsortednd : (sorted.map Prod.fst).Nodup := ((hperm.map Prod.fst).symm).nodup hn
    have hknd : (toRemove.map Prod.fst).Nodup :=
      (((List.take_sublist _ sorted).map Prod.fst)).nodup hsortednd
    have hmm : ∀ k ∈ toRemove.map Prod.fst, k ∈ kept.map Prod.fst := by
      intro k hk
      obtain ⟨kv, hkv, hfst⟩ := List.mem_map.mp hk
      have h1 : kv ∈ sorted := (List.take_sublist _ sorted).subset hkv
      have h2 : kv ∈ kept := hperm.subset h1
      exact hfst ▸ List.mem_map_of_mem Prod.fst h2
    have hlen := fold_erase_length (toRemove.map Prod.fst) kept hn hknd hmm
    rw [hfold, hlen]
    have hlt : (toRemove.map Prod.fst).length = kept.length - MAX_CACHE_ENTRIES := by
      rw [List.length_map, htr, List.length_take, hsorted, List.length_mergeSort]
      exact Nat.min_eq_left (by omega)
    rw [hlt]
    omega

theorem cleanup_cache_le (now : Int) (c : Cache) (h : (c.map Prod.fst).Nodup) :
    (cleanup_cache now c).length ≤ MAX_CACHE_ENTRIES :=
  dropOld_le _ (((List.filter_sublist c).map Prod.fst).nodup h)

theorem cleanup_cache_sublist (now : Int) (c : Cache) : (cleanup_cache now c).Sublist c := by
  unfold cleanup_cache
  dsimp only
  split
  · exact (fold_erase_sublist _ _ _).trans (List.filter_sublist c)
  · exact List.filter_sublist c

theorem insertC_length (c : Cache) (k : Str) (v : CacheEntry) :
    (insertC c k v).length ≤ c.length + 1 := by
  unfold insertC
  split
  · simp
  · simp

theorem insertC_nodup (c : Cache) (k : Str) (v : CacheEntry)
    (h : (c.map Prod.fst).Nodup) : ((insertC c k v).map Prod.fst).Nodup := by
  unfold insertC
  split
  case isTrue =>
    have heq : (c.map (fun kv => if kv.1 == k then (kv.1, v) else kv)).map Prod.fst
        = c.map Prod.fst := by
      rw [List.map_map]
      apply List.map_congr_left
      intro kv _
      simp only [Function.comp_apply]
      split <;> rfl
    rw [heq]; exact h
  case isFalse hany =>
    rw [List.map_append, List.nodup_append]
    refine ⟨h, by simp, ?_⟩
    intro a ha hb
    have hbk : a = k := by simpa using hb
    subst hbk
    obtain ⟨kv, hkv, hfst⟩ := List.mem_map.mp ha
    exact hany (List.any_eq_true.mpr ⟨kv, hkv, by simp [hfst]⟩)

theorem cache_links_invariant (now : Int) (thl bt : Str) (links : List Str) (c : Cache)
    (h : (c.map Prod.fst).Nodup) :
    ((cache_links now thl bt links c).map Prod.fst).Nodup ∧
    (cache_links now thl bt links c).length ≤ MAX_CACHE_ENTRIES + 1 := by
  have h1 : ((cleanup_cache now c).map Prod.fst).Nodup :=
    ((cleanup_cache_sublist now c).map Prod.fst).nodup h
  constructor
  · exact insertC_nodup _ _ _ h1
  · have h2 := cleanup_cache_le now c h
    have h3 := insertC_length (cleanup_cache now c) (get_cache_key thl bt) ⟨links, now⟩
    unfold cache_links
    omega

/-- C4 amended: after any sequence of put operations starting from the empty
cache, the cache holds at most `MAX_CACHE_ENTRIES + 1` entries —
`cleanup_cache` (which evicts oldest-timestamp entries first) runs before
the insertion, so a put can leave the cache one entry over the configured
maximum. -/
theorem C4_amended_capacity (ops : List (Int × Str × Str × List Str)) :
    (ops.foldl (fun c op => cache_links op.1 op.2.1 op.2.2.1 op.2.2.2 c) []).length
      ≤ MAX_CACHE_ENTRIES + 1 := by
  suffices h : ∀ (ops' : List (Int × Str × Str × List Str)) (c : Cache),
      (c.map Prod.fst).Nodup → c.length ≤ MAX_CACHE_ENTRIES + 1 →
      ((ops'.foldl (fun c op => cache_links op.1 op.2.1 op.2.2.1 op.2.2.2 c) c).map
        Prod.fst).Nodup ∧
      (ops'.foldl (fun c op => cache_links op.1 op.2.1 op.2.2.1 op.2.2.2 c) c).length
        ≤ MAX_CACHE_ENTRIES + 1 by
    exact (h ops [] (by simp) (by simp)).2
  intro ops'
  induction ops' with
  | nil => intro c h1 h2; exact ⟨h1, h2⟩
  | cons op ops ih =>
    intro c h1 _
    rw [List.foldl_cons]
    obtain ⟨h3, h4⟩ := cache_links_invariant op.1 op.2.1 op.2.2.1 op.2.2.2 c h1
    exact ih _ h3 h4

/-- C4 fails on the code: 101 puts with distinct keys and fresh timestamps
leave 101 entries in the cache, exceeding `MAX_CACHE_ENTRIES = 100`, because
`cleanup_cache` runs before the insertion in `cache_links`. -/
theorem C4_counterexample :
    (putKeys.foldl (fun c k => cache_links 0 k [] [] c) []).length = 101 ∧
    ¬((putKeys.foldl (fun c k => cache_links 0 k [] [] c) []).length
      ≤ MAX_CACHE_ENTRIES) := by decide

/-! ### Channel search client and aggregator -/

/-- C1 fails on the code: a quota-exhaustion error from the channel-search
call produces exactly the same client result (an empty link list) as a
non-quota failure — the error is swallowed, not distinguished — and after a
full aggregation pass over such a channel the credential's usage is 100, not
the `QUOTA_LIMIT` exhaustion sentinel. -/
theorem C1_counterexample :
    search_channel_videos wC1quota kC1 ['c'] "TH15".toList "War".toList [(kC1, 0)]
      = search_channel_videos wC1other kC1 ['c'] "TH15".toList "War".toList [(kC1, 0)] ∧
    search_channel_videos wC1quota kC1 ['c'] "TH15".toList "War".toList [(kC1, 0)]
      = ([], [(kC1, 100)]) ∧
    search_preloaded_channels wC1quota [kC1] [chC1] 0 "TH15".toList "War".toList 3
        ⟨[(kC1, 0)], []⟩
      = .ok ([], ⟨[(kC1, 100)], [(get_cache_key "TH15".toList "War".toList, ⟨[], 0⟩)]⟩) ∧
    lookupQ [(kC1, 100)] kC1 ≠ QUOTA_LIMIT := by decide

/-- C1 amended: an error — quota-exhaustion or any other — from the search
call or the metadata call is caught inside `search_channel_videos` /
`fetch_video_links` and turned into "zero links from this channel"; the
caller sees only an empty list plus the usage increment, with no
distinguished error and no exhaustion marking. -/
theorem C1_amended_swallowed (w : World) (key channel_id thl bt : Str) (q : QuotaMap)
    (e : ApiErr) :
    (w.searchResp channel_id thl bt = .error e →
      search_channel_videos w key channel_id thl bt q = ([], bumpQ q key 100)) ∧
    (∀ video_ids, video_ids ≠ [] → w.videoResp video_ids = .error e →
      fetch_video_links w key video_ids thl q = ([], bumpQ q key video_ids.length)) := by
  constructor
  · intro h
    unfold search_channel_videos
    rw [h]
  · intro ids hne h
    unfold fetch_video_links
    rw [if_neg hne, h]

/-- Closed instance of C1's amended statement on concrete failing calls. -/
theorem C1_amended_witness :
    search_channel_videos wC1quota kC1 ['c'] "TH15".toList "War".toList [(kC1, 0)]
      = ([], bumpQ [(kC1, 0)] kC1 100) ∧
    fetch_video_links wC1other kC1 [['v']] "TH15".toList [(kC1, 0)]
      = ([], bumpQ [(kC1, 0)] kC1 1) :=
  ⟨(C1_amended_swallowed wC1quota kC1 ['c'] "TH15".toList "War".toList [(kC1, 0)]
      (.http true)).1 rfl,
   (C1_amended_swallowed wC1other kC1 ['c'] "TH15".toList "War".toList [(kC1, 0)]
      .exc).2 [['v']] (by decide) rfl⟩

theorem find_replace (k : Str) (v : CacheEntry) : ∀ c : Cache,
    c.any (fun kv => kv.1 == k) = true →
    ((c.map (fun kv => if kv.1 == k then (kv.1, v) else kv)).find?
      (fun kv => kv.1 == k)).map (·.2) = some v := by
  intro c
  induction c with
  | nil => intro h; simp at h
  | cons kv c ih =>
    intro h
    simp only [List.map_cons]
    by_cases hk : (kv.1 == k) = true
    · rw [if_pos hk, List.find?_cons_of_pos (p := fun kv : Str × CacheEntry => kv.1 == k)
        (a := (kv.1, v)) _ hk]
      rfl
    · rw [if_neg hk, List.find?_cons_of_neg (p := fun kv : Str × CacheEntry => kv.1 == k) _ hk]
      have hkf : (kv.1 == k) = false := by
        simp only [Bool.not_eq_true] at hk
        exact hk
      simp only [List.any_cons, hkf, Bool.false_or] at h
      exact ih h

theorem find_append_single (k : Str) (v : CacheEntry) : ∀ c : Cache,
    c.any (fun kv => kv.1 == k) = false →
    ((c ++ [(k, v)]).find? (fun kv => kv.1 == k)).map (·.2) = some v := by
  intro c
  induction c with
  | nil =>
    intro _
    rw [List.nil_append,
      List.find?_cons_of_pos (p := fun kv : Str × CacheEntry => kv.1 == k) _ (by simp)]
    rfl
  | cons kv c ih =>
    intro h
    simp only [List.any_cons, Bool.or_eq_false_iff] at h
    rw [List.cons_append,
      List.find?_cons_of_neg (p := fun kv : Str × CacheEntry => kv.1 == k) _ (by simp [h.1])]
    exact ih h.2

theorem lookupC_insertC (c : Cache) (k : Str) (v : CacheEntry) :
    lookupC (insertC c k v) k = some v := by
  unfold insertC lookupC
  split
  case isTrue hany => exact find_replace k v c hany
  case isFalse hany =>
    exact find_append_single k v c (by simp only [Bool.not_eq_true] at hany; exact hany)

theorem get_some_spec {now : Int} {thl bt : Str} {c : Cache} {l : List Str}
    (h : get_cached_links now thl bt c = some l) :
    ∃ entry, lookupC c (get_cache_key thl bt) = some entry ∧ l = entry.links ∧
      l ≠ [] ∧ now - entry.timestamp < CACHE_DURATION := by
  unfold get_cached_links at h
  split at h
  case h_2 => exact absurd h (by simp)
  case h_1 entry he =>
    split at h
    case isFalse => exact absurd h (by simp)
    case isTrue hfresh =>
      split at h
      case isTrue => exact absurd h (by simp)
      case isFalse hemp =>
        have hl : l = entry.links := by simpa using h.symm
        refine ⟨entry, he, hl, ?_, hfresh⟩
        rw [hl]
        simpa [List.isEmpty_iff] using hemp

/-- C3 amended: an aggregation pass that starts from a cache miss and finds
zero links does store an entry for the query key — holding an empty link
list — whenever a client was available; but that entry reads as a miss, so
at the read interface the "must fetch" signal is preserved by the
empty-check in `get_cached_links` rather than by absence of the key. -/
theorem C3_amended_empty_entry (w : World) (keys : List Str) (channels : List Channel)
    (now : Int) (thl bt : Str) (max_links : Nat) (st st' : SpcState)
    (hmiss : get_cached_links now thl bt st.cache = none)
    (h : search_preloaded_channels w keys channels now thl bt max_links st
      = .ok ([], st')) :
    get_cached_links now thl bt st'.cache = none ∧
    (∀ key q1, get_youtube_client w.build keys st.quota = .ok (some key, q1) →
      lookupC st'.cache (get_cache_key thl bt) = some ⟨[], now⟩) := by
  unfold search_preloaded_channels at h
  rw [hmiss] at h
  dsimp only [truthyList] at h
  rw [if_neg (by simp)] at h
  split at h
  · exact absurd h (by simp)
  case h_2 q1 hgyc =>
    simp only [Except.ok.injEq, Prod.mk.injEq] at h
    obtain ⟨_, hst⟩ := h
    constructor
    · rw [← hst]
      exact hmiss
    · intro key q2 hgyc2
      rw [hgyc] at hgyc2
      exact absurd hgyc2 (by simp)
  case h_3 key q1 hgyc =>
    simp only [Except.ok.injEq, Prod.mk.injEq] at h
    obtain ⟨hfin, hst⟩ := h
    have hcache : st'.cache = cache_links now thl bt [] st.cache := by
      rw [← hst, hfin]
    have hlook : lookupC st'.cache (get_cache_key thl bt) = some ⟨[], now⟩ := by
      rw [hcache]
      unfold cache_links
      exact lookupC_insertC _ _ _
    refine ⟨?_, fun key' q2 _ => hlook⟩
    unfold get_cached_links
    rw [hlook]
    dsimp only
    rw [if_pos (by simp [CACHE_DURATION])]
    rfl

/-- C3 fails on the code: an aggregation pass that finds zero links still
writes a cache entry for the query key — holding an empty link list —
rather than leaving the key absent. -/
theorem C3_counterexample :
    search_preloaded_channels wC3 [kC1] [] 5 "TH15".toList "CWL".toList 3 ⟨[(kC1, 0)], []⟩
      = .ok ([], ⟨[(kC1, 0)], [(get_cache_key "TH15".toList "CWL".toList, ⟨[], 5⟩)]⟩) ∧
    lookupC [(get_cache_key "TH15".toList "CWL".toList, ⟨[], 5⟩)]
      (get_cache_key "TH15".toList "CWL".toList) = some ⟨[], 5⟩ := by decide

/-- Closed instance of C3's amended statement after a concrete zero-link pass. -/
theorem C3_amended_witness :
    get_cached_links 5 "TH15".toList "CWL".toList
      [(get_cache_key "TH15".toList "CWL".toList, ⟨[], 5⟩)] = none ∧
    lookupC [(get_cache_key "TH15".toList "CWL".toList, ⟨[], 5⟩)]
      (get_cache_key "TH15".toList "CWL".toList) = some ⟨[], 5⟩ := by
  obtain ⟨h1, h2⟩ := C3_amended_empty_entry wC3 [kC1] [] 5 "TH15".toList "CWL".toList 3
    ⟨[(kC1, 0)], []⟩ ⟨[(kC1, 0)], [(get_cache_key "TH15".toList "CWL".toList, ⟨[], 5⟩)]⟩
    (by decide) (by decide)
  exact ⟨h1, h2 kC1 [(kC1, 0)] (by decide)⟩

theorem insertIfAbsent_nodup (s : List Str) (x : Str) (h : s.Nodup) :
    (insertIfAbsent s x).Nodup := by
  unfold insertIfAbsent
  split
  · exact h
  case isFalse hmem =>
    rw [List.nodup_append]
    refine ⟨h, by simp, ?_⟩
    intro a ha hb
    have hax : a = x := by simpa using hb
    subst hax
    exact hmem (List.elem_iff.mpr ha)

theorem foldl_insertIfAbsent_nodup : ∀ (ls : List Str) (s : List Str), s.Nodup →
    (ls.foldl insertIfAbsent s).Nodup := by
  intro ls
  induction ls with
  | nil => intro s h; exact h
  | cons x ls ih =>
    intro s h
    rw [List.foldl_cons]
    exact ih _ (insertIfAbsent_nodup s x h)

theorem foldl2_insertIfAbsent_nodup : ∀ (lss : List (List Str)) (s : List Str), s.Nodup →
    (lss.foldl (fun s ls => ls.foldl insertIfAbsent s) s).Nodup := by
  intro lss
  induction lss with
  | nil => intro s h; exact h
  | cons ls lss ih =>
    intro s h
    rw [List.foldl_cons]
    exact ih _ (foldl_insertIfAbsent_nodup ls s h)

/-- C8: assuming every cached entry is duplicate-free (the aggregator only
ever stores deduplicated lists), `search_preloaded_channels` returns a list
with no repeated link strings of length at most `max_links`, and on a cache
hit that list is exactly the stored entry trimmed to `max_links`, with the
state unchanged. -/
theorem C8_dedup_bounded (w : World) (keys : List Str) (channels : List Channel)
    (now : Int) (thl bt : Str) (max_links : Nat) (st : SpcState)
    (hc : ∀ kv ∈ st.cache, kv.2.links.Nodup) :
    ∀ r st', search_preloaded_channels w keys channels now thl bt max_links st
        = .ok (r, st') →
      r.Nodup ∧ r.length ≤ max_links ∧
      (∀ l, get_cached_links now thl bt st.cache = some l →
        r = l.take max_links ∧ st' = st) := by
  intro r st' h
  unfold search_preloaded_channels at h
  dsimp only at h
  cases hcl : get_cached_links now thl bt st.cache with
  | some l =>
    rw [hcl] at h
    obtain ⟨entry, he, hle, hlne, _⟩ := get_some_spec hcl
    have htr : truthyList (some l) = true := by
      simp [truthyList, List.isEmpty_iff, hlne]
    rw [if_pos htr] at h
    simp only [Option.getD_some, Except.ok.injEq, Prod.mk.injEq] at h
    obtain ⟨hr, hst⟩ := h
    have hnd : l.Nodup := by
      obtain ⟨kv, hkv_find, hkv2⟩ : ∃ kv,
          st.cache.find? (fun kv => kv.1 == get_cache_key thl bt) = some kv ∧
          kv.2 = entry := by
        unfold lookupC at he
        cases hf : st.cache.find? (fun kv => kv.1 == get_cache_key thl bt) with
        | none => rw [hf] at he; simp at he
        | some kv => rw [hf] at he; exact ⟨kv, rfl, by simpa using he⟩
      have hmem := List.mem_of_find?_eq_some hkv_find
      have hnde := hc kv hmem
      rw [hkv2] at hnde
      rw [hle]
      exact hnde
    refine ⟨?_, ?_, ?_⟩
    · rw [← hr]
      exact (List.take_sublist _ _).nodup hnd
    · rw [← hr]
      exact List.length_take_le _ _
    · intro l' hl'
      have hll : l' = l := by simpa using hl'.symm
      subst hll
      exact ⟨hr.symm, hst.symm⟩
  | none =>
    rw [hcl] at h
    rw [if_neg (by simp [truthyList])] at h
    split at h
    · exact absurd h (by simp)
    case h_2 q1 hgyc =>
      simp only [Except.ok.injEq, Prod.mk.injEq] at h
      obtain ⟨hr, hst⟩ := h
      refine ⟨?_, ?_, ?_⟩
      · rw [← hr]; exact List.nodup_nil
      · rw [← hr]; simp
      · intro l hl
        exact absurd hl (by simp)
    case h_3 key q1 hgyc =>
      simp only [Except.ok.injEq, Prod.mk.injEq] at h
      obtain ⟨hr, hst⟩ := h
      have hnd := foldl2_insertIfAbsent_nodup
        (channels.foldl (fun acc ch =>
          (acc.1 ++ [(search_channel_videos w key ch.id thl bt acc.2).1],
            (search_channel_videos w key ch.id thl bt acc.2).2)) ([], q1)).1
        [] List.nodup_nil
      refine ⟨?_, ?_, ?_⟩
      · rw [← hr]
        exact (List.take_sublist _ _).nodup hnd
      · rw [← hr]
        exact List.length_take_le _ _
      · intro l hl
        exact absurd hl (by simp)

/-- Closed instance of C8 on a concrete cache hit. -/
theorem C8_witness :
    ([['a'], ['b']] : List Str).Nodup ∧ ([['a'], ['b']] : List Str).length ≤ 3 ∧
    ([['a'], ['b']] : List Str) = ([['a'], ['b']] : List Str).take 3 ∧ stC8 = stC8 := by
  obtain ⟨h1, h2, h3⟩ := C8_dedup_bounded wC3 [kC1] [] 0 "TH16".toList "War".toList 3 stC8
    (by decide) [['a'], ['b']] stC8 (by decide)
  obtain ⟨h4, h5⟩ := h3 [['a'], ['b']] (by decide)
  exact ⟨h1, h2, h4, h5⟩
